import Mathlib

/-!
Verification of the file-based blockchain ("ledger") core of the healthcare
DID repository.

The repository contains two near-duplicate implementations of the chain
engine: a standalone module (`src/blockchain.js`, class `FileBasedBlockchain`)
and an inlined copy in the HTTP server (`src/server.js`, also named
`FileBasedBlockchain`).  Both are embedded here, in the namespaces
`Blockchain` and `Server` respectively.

Modelling conventions:
  * SHA-256 (`this.sha256`) is an abstract parameter `H : String → String`:
    every definition is parameterised by the digest function, and properties
    that in reality ride on collision resistance are stated for all `H`
    (or refuted by exhibiting a concrete `H`).
  * `JSON.stringify` output is modelled as the concrete string the engine
    would produce, with object keys in insertion order; opaque payloads
    (`data`) are carried as their already-serialised JSON text.
  * The file system is a record of total functions (block number to block
    file, transaction hash to transaction file, plus the head-state file);
    `fs.writeFileSync` is a function update, and I/O failure is injected
    explicitly where a claim is about failure behaviour.
  * Clock reads (`new Date().toISOString()`, `Date.now()`) are passed in as
    parameters, one per read the source performs.
-/

/-- The all-zero digest `'0'.repeat(64)` used as the genesis previous hash. -/
def zeros64 : String := String.mk (List.replicate 64 '0')

/-- JSON text hashed for a transaction's own `hash` field:
`JSON.stringify({type, data, timestamp, nonce})`, keys in insertion order,
no `hash` field.  Shared by `blockchain.js` `calculateTransactionHash` and
the inline object literal in `server.js` `addTransaction`. -/
def txHashJson (type data timestamp : String) (nonce : Nat) : String :=
  "\x7b\"type\":\"" ++ type ++ "\",\"data\":" ++ data ++
    ",\"timestamp\":\"" ++ timestamp ++ "\",\"nonce\":" ++ toString nonce ++ "\x7d"

/-- The pipe-separated preimage of a block hash:
`` `${number}|${timestamp}|${previousHash}|${merkleRoot}|${nonce}` ``. -/
def blockHashInput (number : Int) (timestamp previousHash merkleRoot : String)
    (nonce : Nat) : String :=
  toString number ++ "|" ++ timestamp ++ "|" ++ previousHash ++ "|" ++
    merkleRoot ++ "|" ++ toString nonce

/-- One round of the merkle while-loop body: pair digests left-to-right,
`newHashes.push(sha256(left + right))` with `right = hashes[i+1] || left`.
The JavaScript `||` falls back to `left` both when `hashes[i+1]` is absent
(odd tail) and when it is the empty string (the only falsy string). -/
def pairUpJS (H : String → String) : List String → List String
  | [] => []
  | [a] => [H (a ++ a)]
  | a :: b :: rest => H (a ++ (if b = "" then a else b)) :: pairUpJS H rest

/-- The merkle `while (hashes.length > 1)` loop: repeat `pairUpJS` until a
single digest remains, then return `hashes[0]`. -/
def merkleLoopJS (H : String → String) (hashes : List String) : String :=
  if 1 < hashes.length then merkleLoopJS H (pairUpJS H hashes)
  else hashes.headD ""
termination_by hashes.length
decreasing_by
  have hlen : ∀ l : List String, (pairUpJS H l).length = (l.length + 1) / 2 := by
    intro l
    induction l using pairUpJS.induct H with
    | case1 => simp [pairUpJS]
    | case2 a => simp [pairUpJS]
    | case3 a b rest ih =>
        simp [pairUpJS, ih]
        omega
  simp only [hlen]
  omega

/-- One level of the merkle combination as the specification words it:
"pair up digests left-to-right and hash the concatenation
`Hasher(left || right)`; when the current level has an odd count, the last
unpaired digest is paired with itself". -/
def specCombine (H : String → String) : List String → List String
  | [] => []
  | [a] => [H (a ++ a)]
  | a :: b :: rest => H (a ++ b) :: specCombine H rest

/-- The specification's merkle root of a digest level: repeat `specCombine`
"until exactly one digest remains, which is returned as the root". -/
def specRoot (H : String → String) (hashes : List String) : String :=
  if 1 < hashes.length then specRoot H (specCombine H hashes)
  else hashes.headD ""
termination_by hashes.length
decreasing_by
  have hlen : ∀ l : List String, (specCombine H l).length = (l.length + 1) / 2 := by
    intro l
    induction l using specCombine.induct H with
    | case1 => simp [specCombine]
    | case2 a => simp [specCombine]
    | case3 a b rest ih =>
        simp [specCombine, ih]
        omega
  simp only [hlen]
  omega

namespace Blockchain

/-- Transaction record of `src/blockchain.js`: `{type, data, timestamp,
nonce}` with `hash` assigned afterwards (so `hash` serialises last). -/
structure Tx where
  type : String
  data : String
  timestamp : String
  nonce : Nat
  hash : String
  deriving DecidableEq, Repr

/-- `JSON.stringify(tx)` for a full transaction object (leaf preimage of the
merkle computation); key order `type, data, timestamp, nonce, hash`. -/
def jsonTx (tx : Tx) : String :=
  "\x7b\"type\":\"" ++ tx.type ++ "\",\"data\":" ++ tx.data ++
    ",\"timestamp\":\"" ++ tx.timestamp ++ "\",\"nonce\":" ++ toString tx.nonce ++
    ",\"hash\":\"" ++ tx.hash ++ "\"\x7d"

/-- Block record of `src/blockchain.js`. -/
structure Block where
  number : Nat
  timestamp : String
  previousHash : String
  merkleRoot : String
  transactions : List Tx
  nonce : Nat
  difficulty : Nat
  miner : String
  hash : String
  deriving DecidableEq, Repr

/-- `calculateBlockHash`: digest of the pipe-joined
`{number, timestamp, previousHash, merkleRoot, nonce}` (never `hash`). -/
def calculateBlockHash (H : String → String) (b : Block) : String :=
  H (blockHashInput b.number b.timestamp b.previousHash b.merkleRoot b.nonce)

/-- `calculateMerkleRoot`: sentinel `sha256('empty-block')` for an empty
list, else the pairwise while-loop over the leaf digests
`sha256(JSON.stringify(tx))`. -/
def calculateMerkleRoot (H : String → String) (txs : List Tx) : String :=
  if txs.isEmpty then H "empty-block"
  else merkleLoopJS H (txs.map fun tx => H (jsonTx tx))

/-- `calculateTransactionHash`: digest of `{type, data, timestamp,
nonce: tx.nonce || 0}`; `nonce` is always a number here, and `0 || 0 = 0`,
so `|| 0` is the identity on the stored nonce. -/
def calculateTransactionHash (H : String → String) (type data timestamp : String)
    (nonce : Nat) : String :=
  H (txHashJson type data timestamp nonce)

/-- Chain head state (`this.state`, persisted in `state.json`). -/
structure ChainState where
  blockHeight : Nat
  latestBlockHash : String
  totalTransactions : Nat
  genesisTimestamp : String
  chainId : String
  deriving DecidableEq, Repr

/-- A transaction file record: `{...tx, blockNumber, blockHash}`. -/
structure TxRecord where
  type : String
  data : String
  timestamp : String
  nonce : Nat
  hash : String
  blockNumber : Nat
  blockHash : String
  deriving DecidableEq, Repr

/-- The on-disk data directory: block files keyed by block number (the
zero-padded file names are in numeric bijection with the numbers),
transaction files keyed by transaction hash, and the head-state file. -/
structure Disk where
  blockFiles : Nat → Option Block
  txFiles : String → Option TxRecord
  stateFile : Option ChainState

/-- One engine instance: constructor argument, in-memory head state and the
file system it owns. -/
structure Node where
  dataDir : String
  state : ChainState
  disk : Disk

/-- Write the block file (first half of `saveBlock`). -/
def writeBlockFile (d : Disk) (b : Block) : Disk :=
  { d with blockFiles := fun n => if n = b.number then some b else d.blockFiles n }

/-- Write the per-transaction index files (second half of `saveBlock`). -/
def writeTxFiles (d : Disk) (b : Block) : Disk :=
  let f :=
    b.transactions.foldl
      (fun f tx => fun h =>
        if h = tx.hash then
          some ⟨tx.type, tx.data, tx.timestamp, tx.nonce, tx.hash, b.number, b.hash⟩
        else f h)
      d.txFiles
  { d with txFiles := f }

/-- `saveBlock`: block file, then one file per contained transaction. -/
def saveBlock (d : Disk) (b : Block) : Disk :=
  writeTxFiles (writeBlockFile d b) b

/-- `saveState`: overwrite `state.json` with the in-memory state. -/
def saveState (d : Disk) (s : ChainState) : Disk :=
  { d with stateFile := some s }

/-- The `data` payload of the genesis transaction, as serialised JSON. -/
def genesisData : String :=
  "\x7b\"message\":\"Healthcare DID Genesis Block\",\"network\":\"medchain-local\"," ++
    "\"version\":\"1.0.0\",\"creator\":\"Healthcare DID Research\"," ++
    "\"purpose\":\"Healthcare DID Proof of Concept\"\x7d"

/-- `createGenesisBlock`, applied to the freshly initialised state (which
carries the genesis timestamp and chain id) and the given disk. -/
def createGenesisBlock (H : String → String) (st : ChainState) (d : Disk) :
    Node × Block :=
  let txHash := calculateTransactionHash H "GENESIS" genesisData st.genesisTimestamp 0
  let tx : Tx := ⟨"GENESIS", genesisData, st.genesisTimestamp, 0, txHash⟩
  let root := calculateMerkleRoot H [tx]
  let hash := H (blockHashInput 0 st.genesisTimestamp zeros64 root 0)
  let b : Block := ⟨0, st.genesisTimestamp, zeros64, root, [tx], 0, 1, "genesis", hash⟩
  let d1 := saveBlock d b
  let st' : ChainState :=
    { st with latestBlockHash := b.hash, blockHeight := 0, totalTransactions := 1 }
  (⟨"./blockchain-data", st', saveState d1 st'⟩, b)

/-- First-run `initialize()`: no `state.json`, so the state is freshly
constructed and `createGenesisBlock` runs.  `ts` is the single clock read
`new Date().toISOString()`. -/
def freshChain (H : String → String) (ts : String) : Node :=
  let st : ChainState :=
    { blockHeight := 0, latestBlockHash := zeros64, totalTransactions := 0,
      genesisTimestamp := ts, chainId := "medchain-local-001" }
  (createGenesisBlock H st ⟨fun _ => none, fun _ => none, none⟩).1

/-- The receipt returned by `addTransaction`. -/
structure Receipt where
  txHash : String
  blockNumber : Nat
  blockHash : String
  timestamp : String
  deriving DecidableEq, Repr

/-- Injection points for an `fs.writeFileSync` failure inside an append:
the block-file write, a transaction-file write, or the head-state write. -/
inductive FailPoint
  | blockWrite
  | txWrite
  | stateWrite
  deriving DecidableEq, Repr

/-- `addTransaction(type, data)` with an optional injected storage failure.
`ts` and `nonce` are the two clock reads (`new Date().toISOString()` and
`Date.now()`).  The result is the node as left behind by the call, paired
with `some` receipt on success and `none` when an exception escaped.  If
`getLatestBlock()` finds no file the JavaScript dereference of
`latestBlock.number` throws before any effect, which the first arm models. -/
def addTransactionF (H : String → String) (n : Node) (type data ts : String)
    (nonce : Nat) (fail : Option FailPoint) : Node × Option Receipt :=
  let txHash := calculateTransactionHash H type data ts nonce
  let tx : Tx := ⟨type, data, ts, nonce, txHash⟩
  match n.disk.blockFiles n.state.blockHeight with
  | none => (n, none)
  | some latest =>
      let root := calculateMerkleRoot H [tx]
      let hash := H (blockHashInput (latest.number + 1) ts latest.hash root 0)
      let b : Block :=
        ⟨latest.number + 1, ts, latest.hash, root, [tx], 0, 1, "local-node", hash⟩
      if fail = some .blockWrite then (n, none)
      else
        let d1 := writeBlockFile n.disk b
        if fail = some .txWrite then ({ n with disk := d1 }, none)
        else
          let d2 := writeTxFiles d1 b
          let st' : ChainState :=
            { n.state with blockHeight := b.number, latestBlockHash := b.hash,
                           totalTransactions := n.state.totalTransactions + 1 }
          if fail = some .stateWrite then ({ n with disk := d2, state := st' }, none)
          else
            ({ n with disk := saveState d2 st', state := st' },
             some ⟨txHash, b.number, b.hash, ts⟩)

/-- The failure-free `addTransaction` path. -/
def addTransaction (H : String → String) (n : Node) (type data ts : String)
    (nonce : Nat) : Option (Node × Receipt) :=
  match addTransactionF H n type data ts nonce none with
  | (n', some r) => some (n', r)
  | (_, none) => none

/-- One entry of the `errors` array built by `validateChain`; the hash
mismatch entry also carries `expected`/`actual` digests. -/
structure VError where
  block : Nat
  error : String
  expected : Option String
  actual : Option String
  deriving DecidableEq, Repr

/-- The checks `validateChain` runs on block number `i`: retrievability
(`continue` after the missing-block entry), recomputed block hash,
recomputed merkle root, and — for `i > 0`, when the previous block file is
present — the `previousHash` link. -/
def checkBlockErrors (H : String → String) (n : Node) (i : Nat) : List VError :=
  match n.disk.blockFiles i with
  | none => [⟨i, "Block file missing", none, none⟩]
  | some block =>
      (if calculateBlockHash H block = block.hash then []
       else [⟨i, "Hash mismatch - block may be tampered",
              some (calculateBlockHash H block), some block.hash⟩]) ++
      (if calculateMerkleRoot H block.transactions = block.merkleRoot then []
       else [⟨i, "Merkle root mismatch - transactions may be tampered", none, none⟩]) ++
      (if i = 0 then []
       else
         match n.disk.blockFiles (i - 1) with
         | none => []
         | some prev =>
             if block.previousHash = prev.hash then []
             else [⟨i, "Chain broken - previousHash does not match", none, none⟩])

/-- The report returned by `validateChain`. -/
structure VResult where
  valid : Bool
  blocksVerified : Nat
  errors : List VError
  deriving DecidableEq, Repr

/-- `validateChain`: walk `i = 0 .. state.blockHeight`, accumulate every
error, `valid` iff none. -/
def validateChain (H : String → String) (n : Node) : VResult :=
  let errors := (List.range (n.state.blockHeight + 1)).flatMap (checkBlockErrors H n)
  ⟨errors.isEmpty, n.state.blockHeight + 1, errors⟩

/-- The record returned by this module's `getStats` (head-state fields plus
`totalBlocks`; no validation fields). -/
structure Stats where
  chainId : String
  blockHeight : Nat
  totalBlocks : Nat
  totalTransactions : Nat
  latestBlockHash : String
  genesisTimestamp : String
  dataDirectory : String
  deriving DecidableEq, Repr

/-- `getStats` of `src/blockchain.js`. -/
def getStats (n : Node) : Stats :=
  ⟨n.state.chainId, n.state.blockHeight, n.state.blockHeight + 1,
   n.state.totalTransactions, n.state.latestBlockHash,
   n.state.genesisTimestamp, n.dataDir⟩

end Blockchain

namespace Server

/-- Transaction record of the inline `FileBasedBlockchain` in
`src/server.js`.  The genesis transaction has no `nonce` field at all,
hence the `Option`; appended transactions always carry one. -/
structure Tx where
  type : String
  data : String
  timestamp : String
  nonce : Option Nat
  hash : String
  deriving DecidableEq, Repr

/-- `JSON.stringify(tx)` for a full server transaction; key order is
insertion order: `type, data, timestamp[, nonce], hash` (the genesis
transaction is built without `nonce`, appended ones with it). -/
def jsonTx (tx : Tx) : String :=
  "\x7b\"type\":\"" ++ tx.type ++ "\",\"data\":" ++ tx.data ++
    ",\"timestamp\":\"" ++ tx.timestamp ++ "\"" ++
    (match tx.nonce with
     | none => ""
     | some n => ",\"nonce\":" ++ toString n) ++
    ",\"hash\":\"" ++ tx.hash ++ "\"\x7d"

/-- Block record of the server implementation (`prevHash`, no
`difficulty`/`miner`; `merkleRoot` assigned after construction). -/
structure Block where
  number : Int
  timestamp : String
  prevHash : String
  transactions : List Tx
  nonce : Nat
  merkleRoot : String
  hash : String
  deriving DecidableEq, Repr

/-- The server's `calculateBlockHash` over
`` `${number}|${timestamp}|${prevHash}|${merkleRoot}|${nonce}` ``. -/
def calculateBlockHash (H : String → String) (b : Block) : String :=
  H (blockHashInput b.number b.timestamp b.prevHash b.merkleRoot b.nonce)

/-- The server's `calculateMerkleRoot`: sentinel `sha256('empty')` (NOT
`'empty-block'`) for an empty list, else the same pairwise loop. -/
def calculateMerkleRoot (H : String → String) (txs : List Tx) : String :=
  if txs.isEmpty then H "empty"
  else merkleLoopJS H (txs.map fun tx => H (jsonTx tx))

/-- Server chain head state; `blockHeight` starts at `-1` before genesis,
hence `Int`. -/
structure ChainState where
  blockHeight : Int
  latestHash : String
  totalTx : Nat
  chainId : String
  genesis : String
  deriving DecidableEq, Repr

/-- A server transaction file: `{...tx, block: blockNumber}`. -/
structure TxRecord where
  type : String
  data : String
  timestamp : String
  nonce : Option Nat
  hash : String
  block : Int
  deriving DecidableEq, Repr

/-- Server on-disk layout. -/
structure Disk where
  blockFiles : Int → Option Block
  txFiles : String → Option TxRecord
  stateFile : Option ChainState

/-- One server engine instance. -/
structure Node where
  state : ChainState
  disk : Disk

/-- The server's `saveBlock`: block file keyed by number, then one file per
transaction keyed by its hash. -/
def saveBlock (d : Disk) (b : Block) : Disk :=
  let blocks := fun n => if n = b.number then some b else d.blockFiles n
  let txf :=
    b.transactions.foldl
      (fun f tx => fun h =>
        if h = tx.hash then
          some ⟨tx.type, tx.data, tx.timestamp, tx.nonce, tx.hash, b.number⟩
        else f h)
      d.txFiles
  ⟨blocks, txf, d.stateFile⟩

/-- The server's `saveState`. -/
def saveState (d : Disk) (s : ChainState) : Disk :=
  { d with stateFile := some s }

/-- The `data` payload of the server's genesis transaction. -/
def genesisData : String :=
  "\x7b\"message\":\"MedChain Indonesia Genesis\",\"version\":\"1.0.0\"\x7d"

/-- The server's `createGenesisBlock`.  Its transaction hash is
`sha256('genesis-' + Date.now())` — `now` is that clock read — and the
transaction carries no `nonce`. -/
def createGenesisBlock (H : String → String) (st : ChainState) (d : Disk)
    (now : Nat) : Node :=
  let tx : Tx := ⟨"GENESIS", genesisData, st.genesis, none,
                  H ("genesis-" ++ toString now)⟩
  let root := calculateMerkleRoot H [tx]
  let hash := H (blockHashInput 0 st.genesis zeros64 root 0)
  let b : Block := ⟨0, st.genesis, zeros64, [tx], 0, root, hash⟩
  let d1 := saveBlock d b
  let st' : ChainState := { st with blockHeight := 0, latestHash := b.hash, totalTx := 1 }
  ⟨st', saveState d1 st'⟩

/-- First-run construction of the server chain: state starts with
`blockHeight: -1`, then `createGenesisBlock` runs.  `ts` is the
constructor's `new Date().toISOString()`, `now` the genesis `Date.now()`. -/
def freshChain (H : String → String) (ts : String) (now : Nat) : Node :=
  let st : ChainState :=
    { blockHeight := -1, latestHash := zeros64, totalTx := 0,
      chainId := "medchain-local-001", genesis := ts }
  createGenesisBlock H st ⟨fun _ => none, fun _ => none, none⟩ now

/-- Receipt returned by the server's `addTransaction`. -/
structure Receipt where
  txHash : String
  blockNumber : Int
  blockHash : String
  timestamp : String
  deriving DecidableEq, Repr

/-- The server's `addTransaction(type, data)`.  It reads the clock three
times: `timestamp`, then `nonce: Date.now()` (stored, `nonce1`), then a
SECOND `Date.now()` inside the hashed object literal (`nonce2`) — so the
hashed nonce need not be the stored one. -/
def addTransaction (H : String → String) (n : Node) (type data ts : String)
    (nonce1 nonce2 : Nat) : Node × Option Receipt :=
  let tx : Tx := ⟨type, data, ts, some nonce1, H (txHashJson type data ts nonce2)⟩
  match n.disk.blockFiles n.state.blockHeight with
  | none => (n, none)
  | some prev =>
      let root := calculateMerkleRoot H [tx]
      let hash := H (blockHashInput (prev.number + 1) ts prev.hash root 0)
      let b : Block := ⟨prev.number + 1, ts, prev.hash, [tx], 0, root, hash⟩
      let d1 := saveBlock n.disk b
      let st' : ChainState :=
        { n.state with blockHeight := b.number, latestHash := b.hash,
                       totalTx := n.state.totalTx + 1 }
      (⟨st', saveState d1 st'⟩, some ⟨tx.hash, b.number, b.hash, ts⟩)

/-- The server's validation report: `{valid, blocksVerified}` on success,
`{valid, error}` on the first failure. -/
structure VResult where
  valid : Bool
  blocksVerified : Option Int
  error : Option String
  deriving DecidableEq, Repr

/-- The indices `1 .. blockHeight` the server's validation loop visits. -/
def vRange (h : Int) : List Int :=
  if h < 1 then [] else (List.range h.toNat).map fun k => (k : Int) + 1

/-- Loop body of the server's `validateChain`: returns at the FIRST failed
check; checks, in order, that blocks `i` and `i-1` are retrievable, the
`prevHash` link, and the recomputed block hash.  No merkle check, and
block 0 itself is never visited. -/
def validateLoop (H : String → String) (n : Node) : List Int → VResult
  | [] => ⟨true, some (n.state.blockHeight + 1), none⟩
  | i :: rest =>
      match n.disk.blockFiles i, n.disk.blockFiles (i - 1) with
      | some curr, some prev =>
          if curr.prevHash ≠ prev.hash then
            ⟨false, none, some ("Chain broken at " ++ toString i)⟩
          else if calculateBlockHash H curr ≠ curr.hash then
            ⟨false, none, some ("Tampered block " ++ toString i)⟩
          else validateLoop H n rest
      | _, _ => ⟨false, none, some ("Missing block " ++ toString i)⟩

/-- The server's `validateChain`. -/
def validateChain (H : String → String) (n : Node) : VResult :=
  validateLoop H n (vRange n.state.blockHeight)

/-- The record returned by the server's `getStats`: head-state fields plus
`totalBlocks` and the spread of a fresh `validateChain()` result. -/
structure Stats where
  chainId : String
  totalBlocks : Int
  totalTransactions : Nat
  latestBlockHash : String
  valid : Bool
  blocksVerified : Option Int
  error : Option String
  deriving DecidableEq, Repr

/-- The server's `getStats`. -/
def getStats (H : String → String) (n : Node) : Stats :=
  let v := validateChain H n
  ⟨n.state.chainId, n.state.blockHeight + 1, n.state.totalTx,
   n.state.latestHash, v.valid, v.blocksVerified, v.error⟩

end Server

/-- A concrete stand-in digest function used to instantiate the abstract
hasher in witnesses and counterexamples: prefix the input with `#`.  It is
injective and never returns the empty string, like a hex digest. -/
def hashFn : String → String := fun s => "#" ++ s

/-- Chain states reachable by the standalone engine: a first-run
construction followed by any number of successful appends. -/
inductive Reachable (H : String → String) : Blockchain.Node → Prop
  | fresh (ts : String) : Reachable H (Blockchain.freshChain H ts)
  | append (n n' : Blockchain.Node) (r : Blockchain.Receipt)
      (type data ts : String) (nonce : Nat) :
      Reachable H n →
      Blockchain.addTransaction H n type data ts nonce = some (n', r) →
      Reachable H n'

/-- The standalone engine's chain invariant: every block number up to the
head height has a stored block whose stored `number`, `hash`, `merkleRoot`,
transaction hashes and `previousHash` link are all coherent; nothing is
stored beyond the head; and every transaction index file carries the
digest of its own canonical fields. -/
def ChainInv (H : String → String) (n : Blockchain.Node) : Prop :=
  (∀ i, i ≤ n.state.blockHeight →
     ∃ b, n.disk.blockFiles i = some b ∧
       b.number = i ∧
       b.hash = Blockchain.calculateBlockHash H b ∧
       b.merkleRoot = Blockchain.calculateMerkleRoot H b.transactions ∧
       (∀ tx ∈ b.transactions,
          tx.hash = Blockchain.calculateTransactionHash H tx.type tx.data
            tx.timestamp tx.nonce) ∧
       (0 < i → ∃ p, n.disk.blockFiles (i - 1) = some p ∧
          b.previousHash = p.hash)) ∧
  (∀ i, n.state.blockHeight < i → n.disk.blockFiles i = none) ∧
  (∀ h rec, n.disk.txFiles h = some rec →
     rec.hash = Blockchain.calculateTransactionHash H rec.type rec.data
       rec.timestamp rec.nonce)

/-- The four per-block checks of the specification's `validate()`, as a
predicate on a block number: (a) the block is retrievable, (b) the
recomputed block hash equals the stored hash, (c) the recomputed merkle
root equals the stored merkle root, (d) for non-genesis blocks the stored
`previousHash` equals the (retrievable) prior block's stored hash. -/
def ChecksPass (H : String → String) (n : Blockchain.Node) (i : Nat) : Prop :=
  ∃ b, n.disk.blockFiles i = some b ∧
    Blockchain.calculateBlockHash H b = b.hash ∧
    Blockchain.calculateMerkleRoot H b.transactions = b.merkleRoot ∧
    (0 < i → ∀ p, n.disk.blockFiles (i - 1) = some p → b.previousHash = p.hash)

/-- One append request: the caller's arguments plus the call's two clock
reads. -/
structure AppendReq where
  type : String
  data : String
  timestamp : String
  nonce : Nat
  deriving DecidableEq, Repr

/-- Run a sequence of appends against the standalone engine, stopping at
the first failure. -/
def appendAll (H : String → String) :
    Blockchain.Node → List AppendReq → Option Blockchain.Node
  | n, [] => some n
  | n, q :: qs =>
      match Blockchain.addTransaction H n q.type q.data q.timestamp q.nonce with
      | some (n', _) => appendAll H n' qs
      | none => none

/-- A concrete empty-transactions block whose stored fields are internally
consistent under `hashFn` (used to contrast tampered and intact stores). -/
def cexBlockGood : Blockchain.Block :=
  ⟨0, "T", zeros64, hashFn "empty-block", [], 0, 1, "genesis",
   hashFn (blockHashInput 0 "T" zeros64 (hashFn "empty-block") 0)⟩

/-- `cexBlockGood` with its stored `hash` field tampered. -/
def cexBlockBad : Blockchain.Block :=
  { cexBlockGood with hash := "bad" }

/-- The head state matching `cexBlockGood` as the only block. -/
def cexStateB : Blockchain.ChainState :=
  ⟨0, cexBlockGood.hash, 1, "T", "medchain-local-001"⟩

/-- A single-block chain whose store is intact. -/
def cexNode1 : Blockchain.Node :=
  ⟨"./blockchain-data", cexStateB,
   ⟨fun i => if i = 0 then some cexBlockGood else none, fun _ => none,
    some cexStateB⟩⟩

/-- The same chain with the stored block file tampered (same head state). -/
def cexNode2 : Blockchain.Node :=
  ⟨"./blockchain-data", cexStateB,
   ⟨fun i => if i = 0 then some cexBlockBad else none, fun _ => none,
    some cexStateB⟩⟩

/-- A server block whose stored `hash` does not match its recomputed hash. -/
def cexServerBlock : Server.Block :=
  ⟨0, "T", zeros64, [], 0, "mroot", "badhash"⟩

/-- A height-0 server chain whose only stored block is `cexServerBlock`. -/
def cexServerNode : Server.Node :=
  ⟨⟨0, "badhash", 1, "medchain-local-001", "T"⟩,
   ⟨fun i => if i = 0 then some cexServerBlock else none, fun _ => none, none⟩⟩

/-- The fresh standalone chain used by witnesses. -/
def bFresh : Blockchain.Node := Blockchain.freshChain hashFn "T"

/-- The fresh server chain used by witnesses and counterexamples, with
genesis clock reads `"T"` and `7`. -/
def sFresh : Server.Node := Server.freshChain hashFn "T" 7

theorem pairUpJS_length (H : String → String) (l : List String) :
    (pairUpJS H l).length = (l.length + 1) / 2 := by
  induction l using pairUpJS.induct H with
  | case1 => simp [pairUpJS]
  | case2 x => simp [pairUpJS]
  | case3 x y rest ih =>
      simp [pairUpJS, ih]
      omega

theorem specCombine_length (H : String → String) (l : List String) :
    (specCombine H l).length = (l.length + 1) / 2 := by
  induction l using specCombine.induct H with
  | case1 => simp [specCombine]
  | case2 x => simp [specCombine]
  | case3 x y rest ih =>
      simp [specCombine, ih]
      omega

theorem pairUpJS_eq_specCombine (H : String → String) (l : List String)
    (h : ∀ x ∈ l, x ≠ "") : pairUpJS H l = specCombine H l := by
  induction l using pairUpJS.induct H with
  | case1 => rfl
  | case2 x => rfl
  | case3 x y rest ih =>
      have hy : y ≠ "" := h y (by simp)
      simp only [pairUpJS, specCombine, if_neg hy]
      rw [ih fun x hx => h x (by simp [hx])]

theorem specCombine_mem_image (H : String → String) (l : List String) :
    ∀ x ∈ specCombine H l, ∃ s, x = H s := by
  induction l using specCombine.induct H with
  | case1 => simp [specCombine]
  | case2 x =>
      intro x hx
      simp [specCombine] at hx
      exact ⟨_, hx⟩
  | case3 x y rest ih =>
      intro z hz
      simp only [specCombine, List.mem_cons] at hz
      rcases hz with h | h
      · exact ⟨_, h⟩
      · exact ih z h

theorem merkleLoopJS_eq_specRoot (H : String → String) (hne : ∀ s, H s ≠ "") :
    ∀ l : List String, (∀ x ∈ l, ∃ s, x = H s) →
      merkleLoopJS H l = specRoot H l := by
  have main : ∀ N, ∀ l : List String, l.length ≤ N →
      (∀ x ∈ l, ∃ s, x = H s) → merkleLoopJS H l = specRoot H l := by
    intro N
    induction N with
    | zero =>
        intro l hl _
        have hnil : l = [] := List.length_eq_zero.mp (Nat.le_zero.mp hl)
        subst hnil
        rw [merkleLoopJS.eq_def, specRoot.eq_def]
        simp
    | succ N ih =>
        intro l hl himg
        rw [merkleLoopJS.eq_def, specRoot.eq_def]
        by_cases h : 1 < l.length
        · rw [if_pos h, if_pos h]
          have hblank : ∀ x ∈ l, x ≠ "" := by
            intro x hx
            obtain ⟨s, rfl⟩ := himg x hx
            exact hne s
          rw [pairUpJS_eq_specCombine H l hblank]
          apply ih
          · rw [specCombine_length]
            omega
          · exact specCombine_mem_image H l
        · rw [if_neg h, if_neg h]
  exact fun l himg => main l.length l le_rfl himg

theorem getLast?_cons_of_ne_nil {α : Type} (c : α) {l : List α} (h : l ≠ []) :
    (c :: l).getLast? = l.getLast? := by
  cases l with
  | nil => exact absurd rfl h
  | cons x xs => exact List.getLast?_cons_cons

theorem specCombine_ne_nil (H : String → String) {l : List String}
    (h : l ≠ []) : specCombine H l ≠ [] := by
  intro hc
  have := specCombine_length H l
  rw [hc] at this
  have hlen : l.length ≠ 0 := fun h0 => h (List.length_eq_zero.mp h0)
  simp at this
  omega

theorem specCombine_getLast (H : String → String) :
    ∀ (l : List String) (a : String), l.length % 2 = 1 → l.getLast? = some a →
      (specCombine H l).getLast? = some (H (a ++ a)) := by
  intro l
  induction l using specCombine.induct H with
  | case1 =>
      intro a h _
      simp at h
  | case2 x =>
      intro a _ hlast
      have hax : x = a := by simpa using hlast
      subst hax
      rfl
  | case3 x y rest ih =>
      intro a hodd hlast
      have hrodd : rest.length % 2 = 1 := by
        simp only [List.length_cons] at hodd
        omega
      have hrne : rest ≠ [] := by
        intro h
        rw [h] at hrodd
        simp at hrodd
      have hlast' : rest.getLast? = some a := by
        rw [List.getLast?_cons_cons, getLast?_cons_of_ne_nil y hrne] at hlast
        exact hlast
      show (H (x ++ y) :: specCombine H rest).getLast? = some (H (a ++ a))
      rw [getLast?_cons_of_ne_nil _ (specCombine_ne_nil H hrne)]
      exact ih a hrodd hlast'

theorem hashFn_ne_empty : ∀ s, hashFn s ≠ "" := by
  intro s h
  have h2 := congrArg String.length h
  rw [hashFn] at h2
  rw [String.length_append] at h2
  simp at h2
  exact absurd h2.1 (by decide)

theorem pairUpJS_append_last (H : String → String) :
    ∀ (l : List String) (a : String), l.length % 2 = 1 → l.getLast? = some a →
      pairUpJS H (l ++ [a]) = pairUpJS H l := by
  intro l
  induction l using pairUpJS.induct H with
  | case1 =>
      intro a h _
      simp at h
  | case2 x =>
      intro a _ hlast
      have hax : x = a := by simpa using hlast
      subst hax
      show pairUpJS H [x, x] = pairUpJS H [x]
      simp [pairUpJS]
  | case3 x y rest ih =>
      intro a hodd hlast
      have hrodd : rest.length % 2 = 1 := by
        simp only [List.length_cons] at hodd
        omega
      have hrne : rest ≠ [] := by
        intro h
        rw [h] at hrodd
        simp at hrodd
      have hlast' : rest.getLast? = some a := by
        rw [List.getLast?_cons_cons, getLast?_cons_of_ne_nil y hrne] at hlast
        exact hlast
      show pairUpJS H ((x :: y :: rest) ++ [a]) = pairUpJS H (x :: y :: rest)
      simp only [List.cons_append]
      simp only [pairUpJS]
      rw [ih a hrodd hlast']

theorem getLast?_map {α β : Type} (f : α → β) (l : List α) :
    (l.map f).getLast? = l.getLast?.map f := by
  rw [List.getLast?_eq_head?_reverse, List.getLast?_eq_head?_reverse]
  rw [← List.map_reverse, List.head?_map]

/-- Claim C6: for every non-empty transaction sequence, both engines'
`calculateMerkleRoot` equals the specification's root — leaf digests
combined level by level, pairing left-to-right with `Hasher(left || right)`
and pairing the last digest of an odd level with itself — and the
duplicate-last-node rule really pairs the unpaired digest with itself
(last entry of a combined odd level is `Hasher(a || a)` for last digest
`a`), rather than promoting it unchanged.  The digest function is assumed
never to return the empty string, as is true of hex SHA-256. -/
theorem claim_C6 (H : String → String) (hne : ∀ s, H s ≠ "")
    (txsB : List Blockchain.Tx) (txsS : List Server.Tx)
    (hB : txsB ≠ []) (hS : txsS ≠ []) :
    (Blockchain.calculateMerkleRoot H txsB
       = specRoot H (txsB.map fun tx => H (Blockchain.jsonTx tx)) ∧
     Server.calculateMerkleRoot H txsS
       = specRoot H (txsS.map fun tx => H (Server.jsonTx tx))) ∧
    (∀ (l : List String) (a : String), l.length % 2 = 1 → l.getLast? = some a →
       (specCombine H l).getLast? = some (H (a ++ a))) := by
  refine ⟨⟨?_, ?_⟩, fun l a => specCombine_getLast H l a⟩
  · cases txsB with
    | nil => exact absurd rfl hB
    | cons t ts =>
        show merkleLoopJS H ((t :: ts).map fun tx => H (Blockchain.jsonTx tx)) = _
        apply merkleLoopJS_eq_specRoot H hne
        intro x hx
        simp only [List.mem_map] at hx
        obtain ⟨tx, _, rfl⟩ := hx
        exact ⟨_, rfl⟩
  · cases txsS with
    | nil => exact absurd rfl hS
    | cons t ts =>
        show merkleLoopJS H ((t :: ts).map fun tx => H (Server.jsonTx tx)) = _
        apply merkleLoopJS_eq_specRoot H hne
        intro x hx
        simp only [List.mem_map] at hx
        obtain ⟨tx, _, rfl⟩ := hx
        exact ⟨_, rfl⟩

/-- Witness for claim C6 at the concrete digest `hashFn` and concrete
singleton transaction lists. -/
theorem claim_C6_witness :
    (∀ s, hashFn s ≠ "") ∧
    ((Blockchain.calculateMerkleRoot hashFn [⟨"A", "1", "T", 0, "h"⟩]
        = specRoot hashFn
            ([⟨"A", "1", "T", 0, "h"⟩].map fun tx => hashFn (Blockchain.jsonTx tx)) ∧
      Server.calculateMerkleRoot hashFn [⟨"A", "1", "T", none, "h"⟩]
        = specRoot hashFn
            ([⟨"A", "1", "T", none, "h"⟩].map fun tx => hashFn (Server.jsonTx tx))) ∧
     (∀ (l : List String) (a : String), l.length % 2 = 1 → l.getLast? = some a →
        (specCombine hashFn l).getLast? = some (hashFn (a ++ a)))) :=
  ⟨hashFn_ne_empty,
   claim_C6 hashFn hashFn_ne_empty [⟨"A", "1", "T", 0, "h"⟩]
     [⟨"A", "1", "T", none, "h"⟩] (by simp) (by simp)⟩

/-- Claim C7 (amended): the standalone module returns
`Hasher("empty-block")` for the empty transaction sequence, but the
server's inline engine returns `Hasher("empty")`. -/
theorem claim_C7 : ∀ H : String → String,
    Blockchain.calculateMerkleRoot H [] = H "empty-block" ∧
    Server.calculateMerkleRoot H [] = H "empty" :=
  fun _ => ⟨rfl, rfl⟩

/-- Counterexample to claim C7 as stated: under the concrete digest
`hashFn`, the server's computeRoot of the empty sequence is not the
digest of `"empty-block"`. -/
theorem claim_C7_counterexample :
    Server.calculateMerkleRoot hashFn [] ≠ hashFn "empty-block" := by
  decide

theorem merkleRoot_dup_last (H : String → String) (l : List String) (a : String)
    (h3 : 3 ≤ l.length) (hodd : l.length % 2 = 1) (hlast : l.getLast? = some a) :
    merkleLoopJS H (l ++ [a]) = merkleLoopJS H l := by
  rw [merkleLoopJS.eq_def]
  rw [if_pos (show 1 < (l ++ [a]).length by simp; omega)]
  rw [pairUpJS_append_last H l a hodd hlast]
  rw [merkleLoopJS.eq_def H l]
  rw [if_pos (show 1 < l.length by omega)]

/-- Claim C10: appending a second copy of the last transaction of an
odd-length (at least 3) sequence leaves the computed merkle root
unchanged, in both engines — under the duplicate-last-node rule the root
does not uniquely determine the transaction sequence. -/
theorem claim_C10 (H : String → String)
    (L : List Blockchain.Tx) (t : Blockchain.Tx)
    (S : List Server.Tx) (u : Server.Tx)
    (hL3 : 3 ≤ L.length) (hLodd : L.length % 2 = 1) (hLlast : L.getLast? = some t)
    (hS3 : 3 ≤ S.length) (hSodd : S.length % 2 = 1) (hSlast : S.getLast? = some u) :
    Blockchain.calculateMerkleRoot H (L ++ [t]) = Blockchain.calculateMerkleRoot H L ∧
    Server.calculateMerkleRoot H (S ++ [u]) = Server.calculateMerkleRoot H S := by
  constructor
  · have h1 : (L ++ [t]).isEmpty = false := by
      cases L <;> simp
    have h2 : L.isEmpty = false := by
      cases L with
      | nil => simp at hL3
      | cons x xs => simp
    simp only [Blockchain.calculateMerkleRoot, h1, h2, Bool.false_eq_true, if_false]
    rw [List.map_append]
    exact merkleRoot_dup_last H (L.map fun tx => H (Blockchain.jsonTx tx)) _
      (by simp; omega) (by simp [hLodd])
      (by rw [getLast?_map, hLlast]; rfl)
  · have h1 : (S ++ [u]).isEmpty = false := by
      cases S <;> simp
    have h2 : S.isEmpty = false := by
      cases S with
      | nil => simp at hS3
      | cons x xs => simp
    simp only [Server.calculateMerkleRoot, h1, h2, Bool.false_eq_true, if_false]
    rw [List.map_append]
    exact merkleRoot_dup_last H (S.map fun tx => H (Server.jsonTx tx)) _
      (by simp; omega) (by simp [hSodd])
      (by rw [getLast?_map, hSlast]; rfl)

/-- Witness for claim C10 at concrete three-element transaction lists and
the concrete digest `hashFn`. -/
theorem claim_C10_witness :
    Blockchain.calculateMerkleRoot hashFn
        ([⟨"A", "1", "T", 0, "a"⟩, ⟨"B", "2", "T", 1, "b"⟩, ⟨"C", "3", "T", 2, "c"⟩]
          ++ [⟨"C", "3", "T", 2, "c"⟩])
      = Blockchain.calculateMerkleRoot hashFn
          [⟨"A", "1", "T", 0, "a"⟩, ⟨"B", "2", "T", 1, "b"⟩, ⟨"C", "3", "T", 2, "c"⟩] ∧
    Server.calculateMerkleRoot hashFn
        ([⟨"A", "1", "T", none, "a"⟩, ⟨"B", "2", "T", none, "b"⟩,
          ⟨"C", "3", "T", some 2, "c"⟩] ++ [⟨"C", "3", "T", some 2, "c"⟩])
      = Server.calculateMerkleRoot hashFn
          [⟨"A", "1", "T", none, "a"⟩, ⟨"B", "2", "T", none, "b"⟩,
           ⟨"C", "3", "T", some 2, "c"⟩] :=
  claim_C10 hashFn _ _ _ _ (by decide) (by decide) (by decide)
    (by decide) (by decide) (by decide)

theorem freshChain_inv (H : String → String) (ts : String) :
    ChainInv H (Blockchain.freshChain H ts) := by
  refine ⟨?_, ?_, ?_⟩
  · intro i hi
    simp only [Blockchain.freshChain, Blockchain.createGenesisBlock,
      Blockchain.saveBlock, Blockchain.writeBlockFile, Blockchain.writeTxFiles,
      Blockchain.saveState] at hi ⊢
    have hi0 : i = 0 := Nat.le_zero.mp hi
    subst hi0
    refine ⟨_, if_pos rfl, rfl, rfl, rfl, ?_, ?_⟩
    · intro tx htx
      simp only [List.mem_singleton] at htx
      subst htx
      rfl
    · intro h0
      exact absurd h0 (by omega)
  · intro i hi
    simp only [Blockchain.freshChain, Blockchain.createGenesisBlock,
      Blockchain.saveBlock, Blockchain.writeBlockFile, Blockchain.writeTxFiles,
      Blockchain.saveState] at hi ⊢
    rw [if_neg (by omega)]
  · intro h rec hrec
    simp only [Blockchain.freshChain, Blockchain.createGenesisBlock,
      Blockchain.saveBlock, Blockchain.writeBlockFile, Blockchain.writeTxFiles,
      Blockchain.saveState, List.foldl_cons, List.foldl_nil] at hrec
    split at hrec
    · cases hrec
      rfl
    · cases hrec

theorem addTransaction_step {H : String → String} {n n' : Blockchain.Node}
    {r : Blockchain.Receipt} {ty d ts : String} {nc : Nat}
    (inv : ChainInv H n)
    (h : Blockchain.addTransaction H n ty d ts nc = some (n', r)) :
    ChainInv H n' ∧
    n'.state.blockHeight = n.state.blockHeight + 1 ∧
    n'.state.totalTransactions = n.state.totalTransactions + 1 ∧
    (∀ j, j ≠ n.state.blockHeight + 1 → n'.disk.blockFiles j = n.disk.blockFiles j) ∧
    n.disk.blockFiles (n.state.blockHeight + 1) = none ∧
    (∃ b, n'.disk.blockFiles (n.state.blockHeight + 1) = some b) ∧
    r.blockNumber = n.state.blockHeight + 1 := by
  obtain ⟨b0, hb0, hnum, hbhash, hbmerk, hbtxs, hbprev⟩ :=
    inv.1 n.state.blockHeight le_rfl
  simp only [Blockchain.addTransaction, Blockchain.addTransactionF, hb0,
    Blockchain.writeBlockFile, Blockchain.writeTxFiles, Blockchain.saveState,
    List.foldl_cons, List.foldl_nil] at h
  simp only [reduceCtorEq, if_false, Option.some.injEq] at h
  rw [Prod.mk.injEq] at h
  obtain ⟨hn', hr⟩ := h
  subst hn'
  subst hr
  have hkey : n.state.blockHeight = b0.number := hnum.symm
  rw [hkey] at hb0
  rw [hkey]
  refine ⟨⟨?_, ?_, ?_⟩, rfl, rfl, ?_, ?_, ⟨_, if_pos rfl⟩, rfl⟩
  · intro i hi
    have hi2 : i ≤ b0.number + 1 := hi
    by_cases hc : i = b0.number + 1
    · subst hc
      refine ⟨_, if_pos rfl, rfl, rfl, rfl, ?_, ?_⟩
      · intro tx htx
        simp only [List.mem_singleton] at htx
        subst htx
        rfl
      · intro _
        refine ⟨b0, ?_, rfl⟩
        show (if b0.number + 1 - 1 = b0.number + 1 then _
              else n.disk.blockFiles (b0.number + 1 - 1)) = some b0
        rw [if_neg (by omega)]
        simp only [Nat.add_sub_cancel]
        exact hb0
    · have hi' : i ≤ n.state.blockHeight := by omega
      obtain ⟨bi, hbi, hbin, hbih, hbim, hbit, hbip⟩ := inv.1 i hi'
      refine ⟨bi, ?_, hbin, hbih, hbim, hbit, ?_⟩
      · show (if i = b0.number + 1 then _ else n.disk.blockFiles i) = some bi
        rw [if_neg hc]
        exact hbi
      · intro hpos
        obtain ⟨p, hp, hpe⟩ := hbip hpos
        refine ⟨p, ?_, hpe⟩
        show (if i - 1 = b0.number + 1 then _
              else n.disk.blockFiles (i - 1)) = some p
        rw [if_neg (by omega)]
        exact hp
  · intro i hi
    have hi2 : b0.number + 1 < i := hi
    show (if i = b0.number + 1 then _ else n.disk.blockFiles i) = none
    rw [if_neg (by omega)]
    exact inv.2.1 i (by omega)
  · intro hsh rec hrec
    simp only at hrec
    split at hrec
    · cases hrec
      rfl
    · exact inv.2.2 _ _ hrec
  · intro j hj
    show (if j = b0.number + 1 then _ else n.disk.blockFiles j) = n.disk.blockFiles j
    rw [if_neg hj]
  · exact inv.2.1 _ (by omega)

theorem reachable_inv {H : String → String} {n : Blockchain.Node}
    (h : Reachable H n) : ChainInv H n := by
  induction h with
  | fresh ts => exact freshChain_inv H ts
  | append m m' r ty d ts nc _ hstep ih => exact (addTransaction_step ih hstep).1

/-- Claim C1: in every reachable state of the standalone engine (genesis
plus any number of appends), every persisted block's stored `hash` is the
digest of the canonical `{number, timestamp, previousHash, merkleRoot,
nonce}` encoding (the `hash` field itself excluded), its stored
`merkleRoot` is the merkle root of its stored transactions, and every
block above genesis stores the previous stored block's hash as
`previousHash`. -/
theorem claim_C1 (H : String → String) (n : Blockchain.Node)
    (hr : Reachable H n) :
    ∀ i, i ≤ n.state.blockHeight →
      ∃ b, n.disk.blockFiles i = some b ∧
        b.number = i ∧
        b.hash = Blockchain.calculateBlockHash H b ∧
        b.merkleRoot = Blockchain.calculateMerkleRoot H b.transactions ∧
        (0 < i → ∃ p, n.disk.blockFiles (i - 1) = some p ∧
           b.previousHash = p.hash) := by
  intro i hi
  obtain ⟨b, h1, h2, h3, h4, _, h6⟩ := (reachable_inv hr).1 i hi
  exact ⟨b, h1, h2, h3, h4, h6⟩

/-- Witness for claim C1: the freshly constructed chain, block 0. -/
theorem claim_C1_witness :
    ∃ b, bFresh.disk.blockFiles 0 = some b ∧
      b.number = 0 ∧
      b.hash = Blockchain.calculateBlockHash hashFn b ∧
      b.merkleRoot = Blockchain.calculateMerkleRoot hashFn b.transactions ∧
      (0 < 0 → ∃ p, bFresh.disk.blockFiles (0 - 1) = some p ∧
         b.previousHash = p.hash) :=
  claim_C1 hashFn bFresh (Reachable.fresh "T") 0 (Nat.zero_le _)

/-- Claim C4 (amended): in the standalone module every stored transaction
(in block files and in the transaction index files) carries as `hash` the
digest of the canonical encoding of exactly its stored `{type, payload,
timestamp, nonce}` — the hash field itself is not hashed and the hashed
nonce is the stored nonce.  In the server's inline engine this fails: the
genesis transaction's stored hash is `Hasher('genesis-' + Date.now())`
over no transaction fields, and an appended transaction's stored hash
digests a second `Date.now()` sample (`nonce2`) while storing the first
(`nonce1`). -/
theorem claim_C4 (H : String → String) (n : Blockchain.Node)
    (hr : Reachable H n) :
    (∀ i b, n.disk.blockFiles i = some b →
       ∀ tx ∈ b.transactions,
         tx.hash = H (txHashJson tx.type tx.data tx.timestamp tx.nonce)) ∧
    (∀ h rec, n.disk.txFiles h = some rec →
       rec.hash = H (txHashJson rec.type rec.data rec.timestamp rec.nonce)) ∧
    (∀ ts now,
       ∃ g, (Server.freshChain H ts now).disk.blockFiles 0 = some g ∧
         g.transactions.map Server.Tx.hash = [H ("genesis-" ++ toString now)]) ∧
    (∀ (m m' : Server.Node) (r : Server.Receipt) ty d ts n1 n2,
       Server.addTransaction H m ty d ts n1 n2 = (m', some r) →
       ((m'.disk.blockFiles m'.state.blockHeight).map
           fun b => b.transactions.map Server.Tx.hash)
         = some [H (txHashJson ty d ts n2)] ∧
       ((m'.disk.blockFiles m'.state.blockHeight).map
           fun b => b.transactions.map Server.Tx.nonce)
         = some [some n1]) := by
  refine ⟨?_, (reachable_inv hr).2.2, ?_, ?_⟩
  · intro i b hib tx htx
    have hle : i ≤ n.state.blockHeight := by
      by_contra hgt
      rw [(reachable_inv hr).2.1 i (by omega)] at hib
      cases hib
    obtain ⟨bi, hbi, _, _, _, hbit, _⟩ := (reachable_inv hr).1 i hle
    rw [hbi] at hib
    cases hib
    exact hbit tx htx
  · intro ts now
    exact ⟨_, rfl, rfl⟩
  · intro m m' r ty d ts n1 n2 h
    cases hp : m.disk.blockFiles m.state.blockHeight with
    | none =>
        simp only [Server.addTransaction, hp] at h
        rw [Prod.mk.injEq] at h
        exact Option.noConfusion h.2
    | some prev =>
        simp only [Server.addTransaction, hp, Server.saveBlock, Server.saveState,
          List.foldl_cons, List.foldl_nil] at h
        rw [Prod.mk.injEq] at h
        obtain ⟨hm', hr'⟩ := h
        subst hm'
        constructor
        · show ((if (prev.number + 1 : Int) = prev.number + 1 then _
                 else m.disk.blockFiles (prev.number + 1)).map _) = _
          rw [if_pos rfl]
          rfl
        · show ((if (prev.number + 1 : Int) = prev.number + 1 then _
                 else m.disk.blockFiles (prev.number + 1)).map _) = _
          rw [if_pos rfl]
          rfl

/-- Witness for claim C4 at the fresh standalone chain. -/
theorem claim_C4_witness :
    (∀ i b, bFresh.disk.blockFiles i = some b →
       ∀ tx ∈ b.transactions,
         tx.hash = hashFn (txHashJson tx.type tx.data tx.timestamp tx.nonce)) ∧
    (∀ h rec, bFresh.disk.txFiles h = some rec →
       rec.hash = hashFn (txHashJson rec.type rec.data rec.timestamp rec.nonce)) ∧
    (∀ ts now,
       ∃ g, (Server.freshChain hashFn ts now).disk.blockFiles 0 = some g ∧
         g.transactions.map Server.Tx.hash
           = [hashFn ("genesis-" ++ toString now)]) ∧
    (∀ (m m' : Server.Node) (r : Server.Receipt) ty d ts n1 n2,
       Server.addTransaction hashFn m ty d ts n1 n2 = (m', some r) →
       ((m'.disk.blockFiles m'.state.blockHeight).map
           fun b => b.transactions.map Server.Tx.hash)
         = some [hashFn (txHashJson ty d ts n2)] ∧
       ((m'.disk.blockFiles m'.state.blockHeight).map
           fun b => b.transactions.map Server.Tx.nonce)
         = some [some n1]) :=
  claim_C4 hashFn bFresh (Reachable.fresh "T")

/-- Counterexample to claim C4 as stated: in the server's inline engine
(with digest stand-in `hashFn` and concrete clock reads), the stored
genesis transaction hash is the digest of `genesis-7`, not of any
canonical field encoding; and an appended transaction hashed the second
clock sample `6` while storing nonce `5`, so the hashed nonce differs from
the stored nonce. -/
theorem claim_C4_counterexample :
    ((sFresh.disk.blockFiles 0).map fun b => b.transactions.map Server.Tx.hash)
      = some ["#genesis-7"] ∧
    "#genesis-7" ≠ hashFn (txHashJson "GENESIS" Server.genesisData "T" 0) ∧
    (((Server.addTransaction hashFn sFresh "A" "1" "U" 5 6).1.disk.blockFiles 1).map
        fun b => b.transactions.map Server.Tx.nonce) = some [some 5] ∧
    (((Server.addTransaction hashFn sFresh "A" "1" "U" 5 6).1.disk.blockFiles 1).map
        fun b => b.transactions.map Server.Tx.hash)
      = some [hashFn (txHashJson "A" "1" "U" 6)] ∧
    hashFn (txHashJson "A" "1" "U" 6) ≠ hashFn (txHashJson "A" "1" "U" 5) := by
  refine ⟨rfl, by decide, rfl, rfl, by decide⟩

theorem appendAll_height (H : String → String) :
    ∀ (qs : List AppendReq) (n n' : Blockchain.Node), Reachable H n →
      appendAll H n qs = some n' →
      n'.state.blockHeight = n.state.blockHeight + qs.length ∧ Reachable H n' := by
  intro qs
  induction qs with
  | nil =>
      intro n n' hr h
      cases h
      exact ⟨by simp, hr⟩
  | cons q qs ih =>
      intro n n' hr h
      simp only [appendAll] at h
      cases hstep : Blockchain.addTransaction H n q.type q.data q.timestamp q.nonce with
      | none => rw [hstep] at h; cases h
      | some nr =>
          obtain ⟨n1, r1⟩ := nr
          rw [hstep] at h
          have hr1 : Reachable H n1 := Reachable.append _ _ _ _ _ _ _ hr hstep
          obtain ⟨hh', hrr⟩ := ih n1 n' hr1 h
          have step := addTransaction_step (reachable_inv hr) hstep
          refine ⟨?_, hrr⟩
          rw [hh', step.2.1]
          simp only [List.length_cons]
          omega

/-- Claim C9: starting from a fresh chain, any sequence of successful
appends leaves `blockHeight` equal to the number of appends,
`getStats().totalBlocks` equal to that plus one (genesis); and each
successful append from a reachable state advances `blockHeight` by exactly
one and creates exactly one new block file (all other block files are
untouched). -/
theorem claim_C9 (H : String → String) (ts : String) (qs : List AppendReq)
    (n' : Blockchain.Node)
    (h : appendAll H (Blockchain.freshChain H ts) qs = some n') :
    n'.state.blockHeight = qs.length ∧
    (Blockchain.getStats n').totalBlocks = n'.state.blockHeight + 1 ∧
    (Blockchain.getStats n').totalBlocks = qs.length + 1 ∧
    (∀ (m m' : Blockchain.Node) (r : Blockchain.Receipt) ty d ts' nc,
       Reachable H m →
       Blockchain.addTransaction H m ty d ts' nc = some (m', r) →
       m'.state.blockHeight = m.state.blockHeight + 1 ∧
       m.disk.blockFiles (m.state.blockHeight + 1) = none ∧
       (∃ b, m'.disk.blockFiles (m.state.blockHeight + 1) = some b) ∧
       (∀ j, j ≠ m.state.blockHeight + 1 →
          m'.disk.blockFiles j = m.disk.blockFiles j) ∧
       r.blockNumber = m.state.blockHeight + 1) := by
  obtain ⟨hh, _⟩ := appendAll_height H qs _ n' (Reachable.fresh ts) h
  have hzero : (Blockchain.freshChain H ts).state.blockHeight = 0 := rfl
  rw [hzero] at hh
  refine ⟨by omega, rfl, ?_, ?_⟩
  · show n'.state.blockHeight + 1 = qs.length + 1
    omega
  · intro m m' r ty d ts' nc hrm hstep
    obtain ⟨_, h1, _, h3, h4, h5, h6⟩ := addTransaction_step (reachable_inv hrm) hstep
    exact ⟨h1, h4, h5, h3, h6⟩

/-- Witness for claim C9: the empty append sequence on the fresh chain. -/
theorem claim_C9_witness :
    appendAll hashFn bFresh [] = some bFresh ∧
    (bFresh.state.blockHeight = ([] : List AppendReq).length ∧
     (Blockchain.getStats bFresh).totalBlocks = bFresh.state.blockHeight + 1 ∧
     (Blockchain.getStats bFresh).totalBlocks = ([] : List AppendReq).length + 1 ∧
     (∀ (m m' : Blockchain.Node) (r : Blockchain.Receipt) ty d ts' nc,
        Reachable hashFn m →
        Blockchain.addTransaction hashFn m ty d ts' nc = some (m', r) →
        m'.state.blockHeight = m.state.blockHeight + 1 ∧
        m.disk.blockFiles (m.state.blockHeight + 1) = none ∧
        (∃ b, m'.disk.blockFiles (m.state.blockHeight + 1) = some b) ∧
        (∀ j, j ≠ m.state.blockHeight + 1 →
           m'.disk.blockFiles j = m.disk.blockFiles j) ∧
        r.blockNumber = m.state.blockHeight + 1)) :=
  ⟨rfl, claim_C9 hashFn "T" [] bFresh rfl⟩

/-- Claim C3 (amended): an append either completes in full (block file,
transaction files and head-state file written, receipt returned) or raises
a storage error; on every failed append the PERSISTED head record is
unchanged, and a failure while writing the block or transaction files also
leaves the in-memory head state unchanged — but a failure while persisting
the head record leaves the in-memory head fields already advanced (the
stale persisted head becomes authoritative only after a reload, the
orphan-block crash caveat). -/
theorem claim_C3 (H : String → String) (n : Blockchain.Node)
    (ty d ts : String) (nc : Nat) (fail : Option Blockchain.FailPoint) :
    ((Blockchain.addTransactionF H n ty d ts nc fail).2 = none →
       (Blockchain.addTransactionF H n ty d ts nc fail).1.disk.stateFile
         = n.disk.stateFile) ∧
    (fail = some .blockWrite →
       (Blockchain.addTransactionF H n ty d ts nc fail).1 = n) ∧
    (fail = some .txWrite →
       (Blockchain.addTransactionF H n ty d ts nc fail).1.state = n.state) ∧
    (fail = none →
       ∀ latest, n.disk.blockFiles n.state.blockHeight = some latest →
       ∃ m r, Blockchain.addTransactionF H n ty d ts nc none = (m, some r) ∧
         m.disk.stateFile = some m.state ∧
         m.state.blockHeight = latest.number + 1) := by
  cases hp : n.disk.blockFiles n.state.blockHeight with
  | none =>
      refine ⟨?_, ?_, ?_, ?_⟩
      · intro _
        simp only [Blockchain.addTransactionF, hp]
      · intro _
        simp only [Blockchain.addTransactionF, hp]
      · intro _
        simp only [Blockchain.addTransactionF, hp]
      · intro _ latest hl
        cases hl
  | some latest =>
      refine ⟨?_, ?_, ?_, ?_⟩
      · intro h2
        cases fail with
        | none =>
            simp only [Blockchain.addTransactionF, hp, reduceCtorEq, if_false] at h2
        | some fp =>
            cases fp with
            | blockWrite =>
                simp only [Blockchain.addTransactionF, hp, Option.some.injEq,
                  reduceCtorEq, if_true, if_false]
            | txWrite =>
                simp only [Blockchain.addTransactionF, hp, Option.some.injEq,
                  reduceCtorEq, if_true, if_false, Blockchain.writeBlockFile]
            | stateWrite =>
                simp only [Blockchain.addTransactionF, hp, Option.some.injEq,
                  reduceCtorEq, if_true, if_false, Blockchain.writeBlockFile,
                  Blockchain.writeTxFiles]
      · intro hf
        subst hf
        simp only [Blockchain.addTransactionF, hp, Option.some.injEq,
          reduceCtorEq, if_true, if_false]
      · intro hf
        subst hf
        simp only [Blockchain.addTransactionF, hp, Option.some.injEq,
          reduceCtorEq, if_true, if_false]
      · intro hf latest' hl
        subst hf
        injection hl with hl'
        subst hl'
        simp only [Blockchain.addTransactionF, hp, reduceCtorEq, if_false]
        exact ⟨_, _, rfl, rfl, rfl⟩

/-- Witness for claim C3: a transaction-file write failure on the fresh
chain leaves both the in-memory state and the persisted head unchanged. -/
theorem claim_C3_witness :
    (Blockchain.addTransactionF hashFn bFresh "A" "1" "U" 5
        (some Blockchain.FailPoint.txWrite)).1.state = bFresh.state ∧
    ((Blockchain.addTransactionF hashFn bFresh "A" "1" "U" 5
        (some Blockchain.FailPoint.txWrite)).2 = none →
      (Blockchain.addTransactionF hashFn bFresh "A" "1" "U" 5
          (some Blockchain.FailPoint.txWrite)).1.disk.stateFile
        = bFresh.disk.stateFile) :=
  ⟨(claim_C3 hashFn bFresh "A" "1" "U" 5 (some .txWrite)).2.2.1 rfl,
   (claim_C3 hashFn bFresh "A" "1" "U" 5 (some .txWrite)).1⟩

/-- Counterexample to claim C3 as stated: injecting the storage failure at
the head-state write on the fresh chain raises the error AFTER the
in-memory head state has advanced — after this failed append the previous
head state is not intact (blockHeight 1 and totalTransactions 2 in memory,
versus 0 and 1 before), even though the persisted head record still says
blockHeight 0. -/
theorem claim_C3_counterexample :
    (Blockchain.addTransactionF hashFn bFresh "A" "1" "U" 5
        (some Blockchain.FailPoint.stateWrite)).2 = none ∧
    (Blockchain.addTransactionF hashFn bFresh "A" "1" "U" 5
        (some Blockchain.FailPoint.stateWrite)).1.state.blockHeight = 1 ∧
    bFresh.state.blockHeight = 0 ∧
    (Blockchain.addTransactionF hashFn bFresh "A" "1" "U" 5
        (some Blockchain.FailPoint.stateWrite)).1.state.totalTransactions = 2 ∧
    bFresh.state.totalTransactions = 1 ∧
    ((Blockchain.addTransactionF hashFn bFresh "A" "1" "U" 5
        (some Blockchain.FailPoint.stateWrite)).1.disk.stateFile.map
      Blockchain.ChainState.blockHeight) = some 0 :=
  ⟨rfl, rfl, rfl, rfl, rfl, rfl⟩

/-- Claim C5: on first run both engines create a genesis block with number
0, the all-zero previousHash digest (64 zero hex characters) and exactly
one transaction of type GENESIS; the head state becomes blockHeight 0 with
totalTransactions 1; and validation of the fresh chain reports valid with
one block verified and no errors. -/
theorem claim_C5 (H : String → String) (ts : String) (now : Nat) :
    (∃ g, (Blockchain.freshChain H ts).disk.blockFiles 0 = some g ∧
       g.number = 0 ∧ g.previousHash = zeros64 ∧
       g.transactions.map Blockchain.Tx.type = ["GENESIS"] ∧
       g.transactions.length = 1) ∧
    (Blockchain.freshChain H ts).state.blockHeight = 0 ∧
    (Blockchain.freshChain H ts).state.totalTransactions = 1 ∧
    Blockchain.validateChain H (Blockchain.freshChain H ts) = ⟨true, 1, []⟩ ∧
    (∃ g, (Server.freshChain H ts now).disk.blockFiles 0 = some g ∧
       g.number = 0 ∧ g.prevHash = zeros64 ∧
       g.transactions.map Server.Tx.type = ["GENESIS"] ∧
       g.transactions.length = 1) ∧
    (Server.freshChain H ts now).state.blockHeight = 0 ∧
    (Server.freshChain H ts now).state.totalTx = 1 ∧
    Server.validateChain H (Server.freshChain H ts now) = ⟨true, some 1, none⟩ := by
  refine ⟨⟨_, rfl, rfl, rfl, rfl, rfl⟩, rfl, rfl, ?_, ⟨_, rfl, rfl, rfl, rfl, rfl⟩,
    rfl, rfl, rfl⟩
  have herr : (List.range ((Blockchain.freshChain H ts).state.blockHeight + 1)).flatMap
      (Blockchain.checkBlockErrors H (Blockchain.freshChain H ts)) = [] := by
    show (List.range 1).flatMap _ = []
    have hr1 : List.range 1 = [0] := rfl
    rw [hr1]
    simp only [List.flatMap_cons, List.flatMap_nil, List.append_nil]
    unfold Blockchain.checkBlockErrors
    simp only [Blockchain.freshChain, Blockchain.createGenesisBlock, Blockchain.saveBlock,
      Blockchain.writeBlockFile, Blockchain.writeTxFiles, Blockchain.saveState,
      Blockchain.calculateBlockHash, Blockchain.calculateMerkleRoot]
    simp
  unfold Blockchain.validateChain
  rw [herr]
  rfl

/-- Claim C2 (amended): the standalone module's validateChain audits the
whole chain as claimed — it walks blocks 0..blockHeight, reports
blockHeight+1 blocks verified, every error entry names the block that
failed, a block's error entries are empty exactly when the four checks
(retrievable, block hash, merkle root, previous-hash link when the prior
block is retrievable) pass, and the report is valid iff every block passes
all checks.  (The server's inline validateChain does not satisfy the
claim; see the counterexample.) -/
theorem claim_C2 (H : String → String) (n : Blockchain.Node) :
    (Blockchain.validateChain H n).blocksVerified = n.state.blockHeight + 1 ∧
    (Blockchain.validateChain H n).errors
      = (List.range (n.state.blockHeight + 1)).flatMap
          (Blockchain.checkBlockErrors H n) ∧
    (∀ i, Blockchain.checkBlockErrors H n i = [] ↔ ChecksPass H n i) ∧
    (∀ i e, e ∈ Blockchain.checkBlockErrors H n i → e.block = i) ∧
    ((Blockchain.validateChain H n).valid = true ↔
       ∀ i ≤ n.state.blockHeight, ChecksPass H n i) := by
  have hiff : ∀ i, Blockchain.checkBlockErrors H n i = [] ↔ ChecksPass H n i := by
    intro i
    unfold Blockchain.checkBlockErrors ChecksPass
    cases hf : n.disk.blockFiles i with
    | none => simp
    | some b =>
        simp only []
        constructor
        · intro he
          refine ⟨b, rfl, ?_, ?_, ?_⟩
          · by_contra hc
            rw [if_neg hc] at he
            simp at he
          · by_contra hc
            rw [if_neg hc] at he
            simp at he
          · intro hpos p hp
            by_contra hc
            rw [if_neg (show ¬ i = 0 by omega)] at he
            rw [hp] at he
            simp only [] at he
            rw [if_neg hc] at he
            simp at he
        · intro hcp
          obtain ⟨b', hb', h1, h2, h3⟩ := hcp
          injection hb' with hb''
          subst hb''
          rw [if_pos h1, if_pos h2]
          simp only [List.nil_append]
          by_cases hi : i = 0
          · rw [if_pos hi]
          · rw [if_neg hi]
            cases hf2 : n.disk.blockFiles (i - 1) with
            | none => rfl
            | some p =>
                simp only []
                rw [if_pos (h3 (by omega) p hf2)]
  refine ⟨rfl, rfl, hiff, ?_, ?_⟩
  · intro i e he
    unfold Blockchain.checkBlockErrors at he
    cases hf : n.disk.blockFiles i with
    | none =>
        rw [hf] at he
        simp at he
        rw [he]
    | some b =>
        rw [hf] at he
        rw [List.mem_append, List.mem_append] at he
        rcases he with (h | h) | h
        · split at h
          · simp at h
          · simp at h
            rw [h]
        · split at h
          · simp at h
          · simp at h
            rw [h]
        · split at h
          · simp at h
          · split at h
            · simp at h
            · split at h
              · simp at h
              · simp at h
                rw [h]
  · show ((List.range (n.state.blockHeight + 1)).flatMap
        (Blockchain.checkBlockErrors H n)).isEmpty = true ↔ _
    rw [List.isEmpty_iff, List.flatMap_eq_nil_iff]
    constructor
    · intro hall i hi
      exact (hiff i).mp (hall i (List.mem_range.mpr (by omega)))
    · intro hall i hi
      have := List.mem_range.mp hi
      exact (hiff i).mpr (hall i (by omega))

/-- Counterexample to claim C2 as stated: the server's inline validateChain
on a height-0 chain whose only stored block has a tampered hash still
reports valid with one block verified and no error — it never visits block
0's own hash check (its loop starts at block 1), so it does not run the
four checks on every block from 0 to blockHeight, and `valid` is not
equivalent to an empty error sequence of those checks. -/
theorem claim_C2_counterexample :
    Server.validateChain hashFn cexServerNode = ⟨true, some 1, none⟩ ∧
    cexServerNode.state.blockHeight = 0 ∧
    cexServerNode.disk.blockFiles 0 = some cexServerBlock ∧
    Server.calculateBlockHash hashFn cexServerBlock ≠ cexServerBlock.hash :=
  ⟨rfl, rfl, rfl, by decide⟩

/-- Claim C8 (amended): the server's getStats returns the head-state
fields, totalBlocks = blockHeight + 1, and the fields of a freshly
computed validateChain result; the standalone module's getStats returns
totalBlocks = blockHeight + 1 but no validation fields at all — it depends
only on the head state (and the configured data directory), never on the
stored blocks. -/
theorem claim_C8 (H : String → String) (m : Server.Node) :
    Server.getStats H m
      = ⟨m.state.chainId, m.state.blockHeight + 1, m.state.totalTx,
         m.state.latestHash, (Server.validateChain H m).valid,
         (Server.validateChain H m).blocksVerified,
         (Server.validateChain H m).error⟩ ∧
    (∀ (n n' : Blockchain.Node), n.state = n'.state → n.dataDir = n'.dataDir →
       Blockchain.getStats n = Blockchain.getStats n') ∧
    (∀ n : Blockchain.Node,
       (Blockchain.getStats n).totalBlocks = n.state.blockHeight + 1) := by
  refine ⟨rfl, ?_, fun n => rfl⟩
  intro n n' hs hd
  unfold Blockchain.getStats
  rw [hs, hd]

/-- Witness for claim C8 at concrete nodes. -/
theorem claim_C8_witness :
    Blockchain.getStats cexNode1 = Blockchain.getStats cexNode2 ∧
    (Blockchain.getStats cexNode1).totalBlocks = cexNode1.state.blockHeight + 1 :=
  ⟨(claim_C8 hashFn cexServerNode).2.1 cexNode1 cexNode2 rfl rfl,
   (claim_C8 hashFn cexServerNode).2.2 cexNode1⟩

/-- Counterexample to claim C8 as stated: two chain states with the same
head state — one intact, one with its only stored block file tampered —
give the standalone getStats identical results even though a fresh
validateChain reports valid for one and invalid for the other, so this
getStats does not return the fields of a freshly computed validation. -/
theorem claim_C8_counterexample :
    Blockchain.getStats cexNode1 = Blockchain.getStats cexNode2 ∧
    (Blockchain.validateChain hashFn cexNode1).valid = true ∧
    (Blockchain.validateChain hashFn cexNode2).valid = false :=
  ⟨rfl, by decide, by decide⟩

/-- Witness for claim C2 at a concrete chain state. -/
theorem claim_C2_witness :
    (Blockchain.validateChain hashFn cexNode1).blocksVerified
      = cexNode1.state.blockHeight + 1 ∧
    ((Blockchain.validateChain hashFn cexNode1).valid = true ↔
       ∀ i ≤ cexNode1.state.blockHeight, ChecksPass hashFn cexNode1 i) :=
  ⟨(claim_C2 hashFn cexNode1).1, (claim_C2 hashFn cexNode1).2.2.2.2⟩
